import Mathlib

/-!
Shallow embedding of the algorithms-unlocked repository (C++ benchmark
programs) and verification of the claims about it.

Conventions used throughout:
* C++ `std::vector<int>` / `std::string` become `List Int` / `List Char`.
* C++ `int` / `long` index and value arithmetic is carried out in `Int`
  (or in `Nat` where the source value is provably non-negative on every
  reachable input, noted per definition); `Int` division and modulo on
  the non-negative operands that occur here coincide with C++ semantics.
* An indexed read `A[i]` becomes `A.getD i default`; every claim proved
  below only exercises reads that are in bounds, where the default is
  irrelevant.
* An indexed write `A[i] = v` becomes `A.set i v`.
* A `for`/`while` loop becomes structural recursion (carrying the loop
  counter) or well-founded recursion on the loop variant.
-/

/- ## Search variants (src/search/search.cpp) -/

/-- Loop body of `linear_search` (search.cpp lines 77-88): scans the list,
remembering in `answer` the index of the most recent match; `i` is the
index of the head of the remaining list. -/
def linear_search_go (x : Int) : List Int → Int → Int → Int
  | [], _, answer => answer
  | a :: as, i, answer => linear_search_go x as (i + 1) (if a == x then i else answer)

/-- C++ `linear_search(A, n, x)` (search.cpp lines 77-88): the `for` loop over
`i ∈ [0, n)` reading `A[i]` is embedded as structural recursion over the
first `n` elements, carrying the index; `answer` starts at `-1`. -/
def linear_search (A : List Int) (n : Nat) (x : Int) : Int :=
  linear_search_go x (A.take n) 0 (-1)

/-- Loop body of `better_linear_search` (search.cpp lines 99-108): returns the
current index on the first match, `-1` when the list is exhausted. -/
def better_linear_search_go (x : Int) : List Int → Int → Int
  | [], _ => -1
  | a :: as, i => if a == x then i else better_linear_search_go x as (i + 1)

/-- C++ `better_linear_search(A, n, x)` (search.cpp lines 99-108). -/
def better_linear_search (A : List Int) (n : Nat) (x : Int) : Int :=
  better_linear_search_go x (A.take n) 0

/-- C++ `sentinel_linear_search(A, n, x)` (search.cpp lines 122-138): saves
`last = A[n-1]`, writes the sentinel `A[n-1] = x`, scans
`while (A[i] != x) i++` (the scan over the sentinel-carrying copy is the
first index whose element equals `x`, i.e. `List.findIdx`), restores the
last element, and returns `i` when `i < n-1 || A[n-1] == x` (after the
restore `A[n-1]` is again `last`), else `-1`. The source function operates
on its by-value copy of `A`. For `n = 0` the C++ code indexes `A[-1]`;
see the access model `sentinel_linear_search_accesses` below. -/
def sentinel_linear_search (A : List Int) (n : Nat) (x : Int) : Int :=
  let last := A.getD (n - 1) 0
  let A2 := A.set (n - 1) x
  let i : Nat := A2.findIdx (fun a => a == x)
  if (i : Int) < (n : Int) - 1 ∨ last == x then (i : Int) else -1

/-- C++ `recursive_linear_search(A, n, i, x)` (search.cpp lines 151-164),
with the C++ `int` arguments kept as `Int` so that the base-case test
`i > n - 1` behaves as in the source (in particular for `n = 0`). -/
def recursive_linear_search (A : List Int) (n i x : Int) : Int :=
  if i > n - 1 then -1
  else if A.getD i.toNat 0 == x then i
  else recursive_linear_search A n (i + 1) x
termination_by (n - i).toNat
decreasing_by omega

/-- The `while (p <= r)` loop of C++ `binary_search` (search.cpp lines
174-197), as well-founded recursion on the width of the inclusive range
`[p, r]`; `q = (p + r) / 2` (all reachable states have `0 ≤ p ≤ r`, where
C++ and `Int` division agree). -/
def binary_search_loop (A : List Int) (x p r : Int) : Int :=
  if p ≤ r then
    let q := (p + r) / 2
    if A.getD q.toNat 0 == x then q
    else if A.getD q.toNat 0 > x then binary_search_loop A x p (q - 1)
    else binary_search_loop A x (q + 1) r
  else -1
termination_by (r + 1 - p).toNat
decreasing_by all_goals omega

/-- C++ `binary_search(A, n, x)` (search.cpp lines 174-197): starts the loop
at `p = 0`, `r = n - 1`. -/
def binary_search (A : List Int) (n x : Int) : Int :=
  binary_search_loop A x 0 (n - 1)

/-- C++ `recursive_binary_search(A, p, r, x)` (search.cpp lines 208-228). -/
def recursive_binary_search (A : List Int) (p r x : Int) : Int :=
  if p > r then -1
  else
    let q := (p + r) / 2
    if A.getD q.toNat 0 == x then q
    else if A.getD q.toNat 0 > x then recursive_binary_search A p (q - 1) x
    else recursive_binary_search A (q + 1) r x
termination_by (r + 1 - p).toNat
decreasing_by all_goals omega

/- ## Sort variants (src/sort/sort.cpp) -/

/-- Inner loop of C++ `selection_sort` (sort.cpp lines 75-81): starting from
`smallest = i`, for `j ∈ [i+1, n)` set `smallest = j` whenever
`A[j] < A[smallest]`. -/
def selection_smallest (A : List Int) (i n : Nat) : Nat :=
  (List.range' (i + 1) (n - (i + 1))).foldl
    (fun smallest j => if A.getD j 0 < A.getD smallest 0 then j else smallest) i

/-- C++ `selection_sort(A, n)` (sort.cpp lines 72-84) at `n = A.length`: for
each `i ∈ [0, n)` the source computes the index `smallest` of the minimum
of `A[i..n-1]` and then executes `A[i] = A[smallest]` — an assignment, not
a swap. -/
def selection_sort (A : List Int) : List Int :=
  (List.range A.length).foldl
    (fun B i => B.set i (B.getD (selection_smallest B i B.length) 0)) A

/-- Inner `while (j >= 0 && A[j] > key)` loop of C++ `insertion_sort`
(sort.cpp lines 99-103): the C++ index `j` is encoded as the `Nat`
argument `j + 1` (so the pattern `0` is the `j = -1` exit, where the
source falls through to `A[j+1] = key`, i.e. `A[0] = key`). -/
def insertion_shift (A : List Int) (key : Int) : Nat → List Int
  | 0 => A.set 0 key
  | jp + 1 =>
    if A.getD jp 0 > key then insertion_shift (A.set (jp + 1) (A.getD jp 0)) key jp
    else A.set (jp + 1) key

/-- C++ `insertion_sort(A, n)` (sort.cpp lines 92-105) at `n = A.length`:
for `i ∈ [1, n)`, read `key = A[i]` and run the shifting loop starting
at `j = i - 1`. -/
def insertion_sort (A : List Int) : List Int :=
  (List.range' 1 (A.length - 1)).foldl
    (fun B i => insertion_shift B (B.getD i 0) i) A

/-- C++ `INT_MAX`, the sentinel used by `merge`. -/
def INT_MAX : Int := 2147483647

/-- Merge loop of C++ `merge` (sort.cpp lines 136-145): `for (k = p..r)` copy
the smaller of `B[i]`, `C[j]` into `A[k]`; the loop runs `r - p + 1` times,
embedded as the structural fuel argument. -/
def merge_loop (B C : List Int) : Nat → Nat → Nat → List Int → Nat → List Int
  | _, _, _, A, 0 => A
  | i, j, k, A, fuel + 1 =>
    if B.getD i 0 ≤ C.getD j 0 then
      merge_loop B C (i + 1) j (k + 1) (A.set k (B.getD i 0)) fuel
    else
      merge_loop B C i (j + 1) (k + 1) (A.set k (C.getD j 0)) fuel

/-- C++ `merge(A, p, q, r)` (sort.cpp lines 116-146): copies the sorted runs
`A[p..q]` and `A[q+1..r]` into buffers `B` and `C`, each terminated by the
`INT_MAX` sentinel, then merges them back into `A[p..r]`. -/
def merge (A : List Int) (p q r : Nat) : List Int :=
  let B := (A.drop p).take (q - p + 1) ++ [INT_MAX]
  let C := (A.drop (q + 1)).take (r - q) ++ [INT_MAX]
  merge_loop B C 0 0 p A (r - p + 1)

/-- C++ `merge_sort(A, p, r)` (sort.cpp lines 155-168). The C++ `int` bounds
are embedded as `Nat`: every call reachable from `main` has `0 ≤ p` and
`-1 ≤ r`, and the only case where the C++ `r` would be `-1` (an empty
array, `r = n - 1 = -1`) hits the `p >= r` base case exactly as the `Nat`
clamp `r = 0` does. -/
def merge_sort (A : List Int) (p r : Nat) : List Int :=
  if p ≥ r then A
  else
    let q := (p + r) / 2
    let A1 := merge_sort A p q
    let A2 := merge_sort A1 (q + 1) r
    merge A2 p q r
termination_by r - p
decreasing_by all_goals omega

/-- Loop of C++ `verify_sorted` (sort.cpp lines 176-186) with the running
`previous_value`. -/
def verify_sorted_go (prev : Int) : List Int → Bool
  | [] => true
  | a :: as => if a < prev then false else verify_sorted_go a as

/-- C++ `verify_sorted(A, n)` (sort.cpp lines 176-186) at `n = A.length`:
`previous_value = A[0]`, then scan indices `1..n-1`. -/
def verify_sorted (A : List Int) : Bool :=
  verify_sorted_go (A.getD 0 0) A.tail

/-- The guard of the sort benchmark's fatal-error branch (sort.cpp lines
219-222 and the two analogous blocks): `if (!verify_sorted(arr, n))` print
to stderr and `exit(EXIT_FAILURE)`. `true` means the failure exit is
taken. -/
def sort_check_fails (A : List Int) : Bool :=
  ! verify_sorted A

/-- C++ `std::string::compare` three-way result, normalised to `-1/0/1`
(the benchmark only ever tests it against zero, and `compare` returns `0`
exactly on equal strings). -/
def cpp_string_compare : List Char → List Char → Int
  | [], [] => 0
  | [], _ :: _ => -1
  | _ :: _, [] => 1
  | a :: as, b :: bs => if a < b then -1 else if b < a then 1 else cpp_string_compare as bs

/-- The guard of the transform benchmark's fatal-error branch
(src/unnamed/part_001 lines 334-339): `if (!Z.compare(Y))` print the
"transformed string Z does not match target Y" diagnostic and
`exit(EXIT_FAILURE)`. In C++, `!x` holds iff `x == 0`, and
`Z.compare(Y) == 0` iff `Z == Y`. `true` means the failure exit is
taken. -/
def transform_check_fails (Z Y : List Char) : Bool :=
  cpp_string_compare Z Y == 0

/- ## Extended Euclid (src/cryptography/euclid.cpp) -/

/-- C++ `euclid(a, b)` (euclid.cpp lines 40-50): base case `b == 0` returns
`(a, 1, 0)`; otherwise recurse on `(b, a % b)` and back-substitute. The
C++ `long` arithmetic is embedded as `Int`; on the non-negative inputs the
program accepts, C++ `%` and `/` agree with `Int` `%` and `/`. -/
def euclid (a b : Int) : Int × Int × Int :=
  if b = 0 then (a, 1, 0)
  else
    let r := euclid b (a % b)
    (r.1, r.2.2, r.2.1 - (a / b) * r.2.2)
termination_by b.natAbs
decreasing_by
  rename_i hb
  have h1 : 0 ≤ a % b := Int.emod_nonneg a hb
  have h2 : a % b < (b.natAbs : Int) := by
    rcases lt_or_gt_of_ne hb with h | h
    · have hc : (0 : Int) < -b := by omega
      have he : a % (-b) = a % b := Int.emod_neg a b
      have := Int.emod_lt_of_pos a hc
      omega
    · have := Int.emod_lt_of_pos a h
      omega
  omega

/- ## LCS table (src/strings/lcs.cpp, LCSTable) -/

/-- Inner column loop of C++ `LCSTable::compute_lcs_table` (lcs.cpp lines
138-146) filling row `i + 1` of the table left to right; `prev` is row `i`.
The cell `(i+1, j+1)` is `L[i][j] + 1` when `X[i] == Y[j]`, else
`max(L[i][j+1], L[i+1][j])` (up, then left, as in
`std::max(table[coord(i-1, j)], table[coord(i, j-1)])`). Column `0` is
zero (lines 128-130). -/
def compute_lcs_table_row (X Y : List Char) (i : Nat) (prev : Nat → Nat) : Nat → Nat
  | 0 => 0
  | j + 1 =>
    if X.getD i ' ' == Y.getD j ' ' then prev j + 1
    else max (prev (j + 1)) (compute_lcs_table_row X Y i prev j)

/-- C++ `LCSTable::compute_lcs_table` (lcs.cpp lines 126-147): the cell
function of the `(m+1) × (n+1)` table, built row by row exactly in the
source's fill order; row `0` is zero (lines 133-135). Cell values are the
C++ `int` entries, which are non-negative by construction, so `Nat`. -/
def compute_lcs_table (X Y : List Char) : Nat → Nat → Nat
  | 0 => fun _ => 0
  | i + 1 => compute_lcs_table_row X Y i (compute_lcs_table X Y i)

/-- Column recursion of C++ `assemble_lcs` (lcs.cpp lines 168-182) for cells
in row `i + 1`; `prev j` is `assemble_lcs` at `(i, j)`. The source's four
branches are kept in order: table value `0` returns the empty string;
matching characters recurse to `(i, j-1)` of the source, i.e. diagonal;
`table[i][j-1] > table[i-1][j]` recurses along the row; otherwise up the
column. At column `0` the table value is `0` by construction, where the
source's first branch returns the empty string. -/
def assemble_lcs_row (X Y : List Char) (i : Nat) (prev : Nat → List Char) : Nat → List Char
  | 0 => []
  | j + 1 =>
    if compute_lcs_table X Y (i + 1) (j + 1) = 0 then []
    else if X.getD i ' ' == Y.getD j ' ' then prev j ++ [X.getD i ' ']
    else if compute_lcs_table X Y (i + 1) j > compute_lcs_table X Y i (j + 1) then
      assemble_lcs_row X Y i prev j
    else prev (j + 1)

/-- C++ `assemble_lcs(t, i, j)` (lcs.cpp lines 168-182), on the table
computed for `X` and `Y`. In row `0` every table value is `0` by
construction, where the source's first branch returns the empty string. -/
def assemble_lcs (X Y : List Char) : Nat → Nat → List Char
  | 0 => fun _ => []
  | i + 1 => assemble_lcs_row X Y i (assemble_lcs X Y i)

/- ## Transform tables (src/unnamed/part_001) -/

/-- C++ `enum op_type` (part_001 line 67). -/
inductive op_type
  | COPY
  | REPLACE
  | INSERT
  | DELETE
  | NOOP
deriving DecidableEq

/-- C++ `struct Operation` (part_001 lines 69-72). -/
structure Operation where
  type : op_type
  apply_on : Char
deriving DecidableEq

/-- Inner column loop of C++ `TransformTable::compute_transform_tables`
(part_001 lines 157-178) filling row `i + 1`: the copy/replace candidate
from the diagonal is taken first, then replaced by the delete candidate
from above on strict improvement, then by the insert candidate from the
left on strict improvement. Column `0` holds `(i+1) * cd` with a `DELETE`
of `X[i]` (lines 145-148). -/
def compute_transform_tables_row (X Y : List Char) (cc cr cd ci : Int) (i : Nat)
    (prev : Nat → Int × Operation) : Nat → Int × Operation
  | 0 => (((i : Int) + 1) * cd, ⟨op_type.DELETE, X.getD i ' '⟩)
  | j + 1 =>
    let base :=
      if X.getD i ' ' == Y.getD j ' ' then ((prev j).1 + cc, (⟨op_type.COPY, Y.getD j ' '⟩ : Operation))
      else ((prev j).1 + cr, (⟨op_type.REPLACE, Y.getD j ' '⟩ : Operation))
    let afterDel :=
      if (prev (j + 1)).1 + cd < base.1 then
        ((prev (j + 1)).1 + cd, (⟨op_type.DELETE, X.getD i ' '⟩ : Operation))
      else base
    let left := compute_transform_tables_row X Y cc cr cd ci i prev j
    if left.1 + ci < afterDel.1 then (left.1 + ci, ⟨op_type.INSERT, Y.getD j ' '⟩)
    else afterDel

/-- C++ `TransformTable::compute_transform_tables` (part_001 lines 140-179):
the cell function of the combined cost/op tables, built row by row in the
source's fill order. Row `0` holds `(0, NOOP)` at `(0,0)` and cumulative
insert costs `j * ci` with `INSERT Y[j-1]` elsewhere (lines 141-154). -/
def compute_transform_tables (X Y : List Char) (cc cr cd ci : Int) : Nat → Nat → Int × Operation
  | 0 => fun j =>
    if j = 0 then (0, ⟨op_type.NOOP, '-'⟩)
    else ((j : Int) * ci, ⟨op_type.INSERT, Y.getD (j - 1) ' '⟩)
  | i + 1 => compute_transform_tables_row X Y cc cr cd ci i (compute_transform_tables X Y cc cr cd ci i)

/-- Sanity check of the embedding against the worked example in the source
comment (part_001 lines 77-91): bottom row of the cost table for
`X = "ACAAGC"`, `Y = "CCGT"` with the book costs `(-1, 1, 2, 2)`. -/
example :
    (List.range 5).map
        (fun j => (compute_transform_tables "ACAAGC".toList "CCGT".toList (-1) 1 2 2 6 j).1) =
      [12, 9, 6, 5, 4] := by decide

/-- Sanity check of the op table against the same source comment: ops of the
bottom row are `D C C D R`. -/
example :
    (List.range 5).map
        (fun j => (compute_transform_tables "ACAAGC".toList "CCGT".toList (-1) 1 2 2 6 j).2.type) =
      [op_type.DELETE, op_type.COPY, op_type.COPY, op_type.DELETE, op_type.REPLACE] := by decide

/-- Row-0 walk of C++ `assemble_transformation` (part_001 lines 222-245): at
`(0, 0)` the recorded op is the `NOOP` placed by the table construction and
the source returns `[NOOP]`; at `(0, j+1)` the recorded op is
`INSERT Y[j]`, and the source's insert branch recurses along the row and
appends it. -/
def assemble_transformation_row0 (Y : List Char) : Nat → List Operation
  | 0 => [⟨op_type.NOOP, '-'⟩]
  | j + 1 => assemble_transformation_row0 Y j ++ [⟨op_type.INSERT, Y.getD j ' '⟩]

/-- Column recursion of C++ `assemble_transformation` (part_001 lines
222-245) for cells in row `i + 1`, dispatching on the op recorded in the
table exactly as the source: `NOOP` returns `[NOOP]`; `COPY`/`REPLACE`
recurse diagonally; `DELETE` recurses up the column; `INSERT` recurses
along the row; each appends the recorded op. At column `0` the recorded op
is `DELETE X[i]` by table construction, which the source's delete branch
handles by recursing up the column and appending it. -/
def assemble_transformation_row (X Y : List Char) (cc cr cd ci : Int) (i : Nat)
    (prev : Nat → List Operation) : Nat → List Operation
  | 0 => prev 0 ++ [⟨op_type.DELETE, X.getD i ' '⟩]
  | j + 1 =>
    let o := (compute_transform_tables X Y cc cr cd ci (i + 1) (j + 1)).2
    match o.type with
    | op_type.NOOP => [⟨op_type.NOOP, '-'⟩]
    | op_type.COPY => prev j ++ [o]
    | op_type.REPLACE => prev j ++ [o]
    | op_type.DELETE => prev (j + 1) ++ [o]
    | op_type.INSERT => assemble_transformation_row X Y cc cr cd ci i prev j ++ [o]

/-- C++ `assemble_transformation(t, i, j)` (part_001 lines 222-245) on the
tables computed for `X`, `Y` and the four costs: returns the operation
list with the op at `(0,0)`'s `NOOP` first and the op recorded at `(i, j)`
last (each recursive call `push_back`s its cell's op after the recursion
returns). -/
def assemble_transformation (X Y : List Char) (cc cr cd ci : Int) : Nat → Nat → List Operation
  | 0 => assemble_transformation_row0 Y
  | i + 1 => assemble_transformation_row X Y cc cr cd ci i (assemble_transformation X Y cc cr cd ci i)

/-- Sanity checks for the row/column specialisations used by the
`assemble_transformation` embedding: the recorded op at `(0,0)` is `NOOP`,
at `(0, j+1)` it is `INSERT Y[j]`, and at `(i+1, 0)` it is `DELETE X[i]`. -/
example (X Y : List Char) (cc cr cd ci : Int) :
    (compute_transform_tables X Y cc cr cd ci 0 0).2 = ⟨op_type.NOOP, '-'⟩ := rfl

example (X Y : List Char) (cc cr cd ci : Int) (j : Nat) :
    (compute_transform_tables X Y cc cr cd ci 0 (j + 1)).2 = ⟨op_type.INSERT, Y.getD j ' '⟩ := rfl

example (X Y : List Char) (cc cr cd ci : Int) (i : Nat) :
    (compute_transform_tables X Y cc cr cd ci (i + 1) 0).2 = ⟨op_type.DELETE, X.getD i ' '⟩ := rfl

/-- Loop of C++ `apply_transformation` (part_001 lines 254-278): the source
iterates the operation vector from `rbegin()` to `rend()`, i.e. over the
reversed list, growing `Z` and advancing `pos` into `X` on copy, replace
and delete. -/
def apply_transformation_go (X : List Char) : List Operation → Nat → List Char
  | [], _ => []
  | o :: rest, pos =>
    match o.type with
    | op_type.COPY => X.getD pos ' ' :: apply_transformation_go X rest (pos + 1)
    | op_type.REPLACE => o.apply_on :: apply_transformation_go X rest (pos + 1)
    | op_type.INSERT => o.apply_on :: apply_transformation_go X rest pos
    | op_type.DELETE => apply_transformation_go X rest (pos + 1)
    | op_type.NOOP => apply_transformation_go X rest pos

/-- C++ `apply_transformation(str_x, op_vector)` (part_001 lines 254-278). -/
def apply_transformation (X : List Char) (ops : List Operation) : List Char :=
  apply_transformation_go X ops.reverse 0

/- ## Claim C1: sort correctness (code bug in selection_sort) -/

/-- C1: the claim states that `selection_sort`, `insertion_sort` and
`merge_sort` each turn any array into a sorted permutation of its original
contents. This fails for `selection_sort`: on `A = [2, 1]` the source's
`A[i] = A[smallest]` assignment (sort.cpp line 82, with no swap) yields
`[1, 1]`, which is monotonically non-decreasing — so `verify_sorted`
passes — but is not a permutation of `[2, 1]`. The other two sorts handle
this input correctly. -/
theorem claim_C1_selection_sort_not_permutation :
    selection_sort [2, 1] = [1, 1] ∧
    ¬ (selection_sort [2, 1]).Perm [2, 1] ∧
    verify_sorted (selection_sort [2, 1]) = true ∧
    insertion_sort [2, 1] = [1, 2] ∧
    merge_sort [2, 1] 0 1 = [1, 2] := by
  refine ⟨by decide, by decide, by decide, by decide, ?_⟩
  simp [merge_sort.eq_def]
  decide

/- ## Claim C2: edit-transform round trip (code bug in apply_transformation) -/

/-- C2: the claim states that applying the operation sequence produced by
`assemble_transformation` forward to `X` via `apply_transformation` yields
`Y`, for every `X`, `Y` and cost tuple. It fails: `assemble_transformation`
returns the operations in forward order (`NOOP` first, the op recorded at
`(m, n)` last), but `apply_transformation` iterates the vector from
`rbegin()` to `rend()`, applying them in reverse. For `X = "AB"`,
`Y = "BA"` and the book costs `(copy, replace, delete, insert) =
(-1, 1, 2, 2)` the assembled script is `[NOOP, REPLACE 'B', REPLACE 'A']`
and the reversed application produces `"AB"`, not `"BA"`. -/
theorem claim_C2_apply_transformation_reverses_script :
    assemble_transformation "AB".toList "BA".toList (-1) 1 2 2 2 2 =
      [⟨op_type.NOOP, '-'⟩, ⟨op_type.REPLACE, 'B'⟩, ⟨op_type.REPLACE, 'A'⟩] ∧
    apply_transformation "AB".toList
        (assemble_transformation "AB".toList "BA".toList (-1) 1 2 2 2 2) =
      "AB".toList ∧
    "AB".toList ≠ "BA".toList := by
  decide

/- ## Claim C3: benchmark failure branches (inverted check in the transform harness) -/

/-- C3: the claim states that the failure branch is taken exactly when the
correctness check fails (sort output not monotone, or `Z ≠ Y`). The sort
harness's guard `!verify_sorted(...)` behaves as claimed, but the
transform harness's guard `!Z.compare(Y)` (part_001 line 335) holds
precisely when `compare` returns `0`, i.e. when `Z` EQUALS `Y`: the
program prints the diagnostic and exits with failure status exactly when
the check passes, and takes no failure exit when `Z` differs from `Y`. -/
theorem claim_C3_transform_failure_branch_inverted :
    transform_check_fails "AB".toList "AB".toList = true ∧
    transform_check_fails "AB".toList "BA".toList = false ∧
    sort_check_fails [2, 1] = true ∧
    sort_check_fails [1, 2] = false := by
  decide

/- ## Claim C5: assemble_lcs tie-break -/

/-- C5 counterexample: the claim states that when the two neighbour values
are equal the walk recurses to `(i, j-1)`. For `X = "AB"`, `Y = "BA"` at
cell `(2, 2)` the cell is non-zero, the characters `X[1] = 'B'` and
`Y[1] = 'A'` differ, the neighbours `(2, 1)` and `(1, 2)` hold equal
values, and the walk produces `assemble_lcs` of `(1, 2)` — the string
`"A"` — whereas recursing to `(2, 1)` would produce `"B"`. -/
theorem claim_C5_counterexample :
    compute_lcs_table "AB".toList "BA".toList 2 2 ≠ 0 ∧
    "AB".toList.getD 1 ' ' ≠ "BA".toList.getD 1 ' ' ∧
    compute_lcs_table "AB".toList "BA".toList 2 1 =
      compute_lcs_table "AB".toList "BA".toList 1 2 ∧
    assemble_lcs "AB".toList "BA".toList 2 2 = "A".toList ∧
    assemble_lcs "AB".toList "BA".toList 2 1 = "B".toList ∧
    assemble_lcs "AB".toList "BA".toList 1 2 = "A".toList := by
  decide

/-- C5 amended: in `assemble_lcs`, when the cell at `(i+1, j+1)` is non-zero
and the characters differ, the walk compares the neighbours with strict
`>`: it recurses to the row neighbour `(i+1, j)` — the source's
`(i, j-1)` — exactly when that neighbour's value is strictly larger, and
otherwise, including on ties, recurses to `(i, j+1)` — the source's
`(i-1, j)`, the row-decrement path. -/
theorem claim_C5_amended_tie_goes_up_the_column (X Y : List Char) (i j : Nat)
    (hz : compute_lcs_table X Y (i + 1) (j + 1) ≠ 0)
    (hne : X.getD i ' ' ≠ Y.getD j ' ') :
    (compute_lcs_table X Y (i + 1) j > compute_lcs_table X Y i (j + 1) →
      assemble_lcs X Y (i + 1) (j + 1) = assemble_lcs X Y (i + 1) j) ∧
    (¬ compute_lcs_table X Y (i + 1) j > compute_lcs_table X Y i (j + 1) →
      assemble_lcs X Y (i + 1) (j + 1) = assemble_lcs X Y i (j + 1)) := by
  have hne2 : ¬ X[i]?.getD ' ' = Y[j]?.getD ' ' := by
    intro hh
    exact hne (by simpa [List.getD_eq_getElem?_getD] using hh)
  constructor <;> intro h <;>
    simp [assemble_lcs, assemble_lcs_row, hz, hne2, h]

/-- C5 amended witness: instance of the amended claim at the tie in the
counterexample input. -/
theorem claim_C5_amended_witness :
    assemble_lcs "AB".toList "BA".toList 2 2 = assemble_lcs "AB".toList "BA".toList 1 2 :=
  (claim_C5_amended_tie_goes_up_the_column "AB".toList "BA".toList 1 1
      (by decide) (by decide)).2 (by decide)

/- ## Claim C9: extended Euclid -/

/-- Euclid recursion step for `Int.gcd`: the gcd is unchanged by replacing
`(a, b)` with `(b, a % b)`. -/
lemma int_gcd_emod_step (a b : Int) : Int.gcd a b = Int.gcd b (a % b) := by
  have hsplit : b * (a / b) + a % b = a := Int.ediv_add_emod a b
  refine Nat.dvd_antisymm ?_ ?_
  · rw [← Int.natCast_dvd_natCast]
    refine Int.dvd_gcd Int.gcd_dvd_right ?_
    have h1 : (Int.gcd a b : Int) ∣ a := Int.gcd_dvd_left
    have h2 : (Int.gcd a b : Int) ∣ b := Int.gcd_dvd_right
    have h3 : (Int.gcd a b : Int) ∣ a - b * (a / b) := dvd_sub h1 (h2.mul_right _)
    rwa [Int.emod_def]
  · rw [← Int.natCast_dvd_natCast]
    have h1 : (Int.gcd b (a % b) : Int) ∣ b := Int.gcd_dvd_left
    have h2 : (Int.gcd b (a % b) : Int) ∣ a % b := Int.gcd_dvd_right
    refine Int.dvd_gcd ?_ h1
    have h3 := dvd_add (h1.mul_right (a / b)) h2
    rwa [hsplit] at h3

/-- Main invariant of `euclid`: on non-negative inputs the first component
is `gcd a b` and the returned coefficients satisfy the Bézout identity. -/
lemma euclid_correct (a b : Int) (ha : 0 ≤ a) (hb : 0 ≤ b) :
    (euclid a b).1 = a * (euclid a b).2.1 + b * (euclid a b).2.2 ∧
    (euclid a b).1 = (Int.gcd a b : Int) := by
  have H : ∀ n (a b : Int), b.natAbs = n → 0 ≤ a → 0 ≤ b →
      (euclid a b).1 = a * (euclid a b).2.1 + b * (euclid a b).2.2 ∧
      (euclid a b).1 = (Int.gcd a b : Int) := by
    intro n
    induction n using Nat.strong_induction_on with
    | _ n ih =>
      intro a b hn ha hb
      rw [euclid.eq_def]
      by_cases h0 : b = 0
      · subst h0
        refine ⟨by simp, ?_⟩
        simp [Int.gcd, Int.natAbs_of_nonneg ha]
      · simp only [if_neg h0]
        have hmodnn : 0 ≤ a % b := Int.emod_nonneg a h0
        have hlt : (a % b).natAbs < n := by
          subst hn
          have h2 : a % b < (b.natAbs : Int) := by
            have hbpos : 0 < b := lt_of_le_of_ne hb (Ne.symm h0)
            have := Int.emod_lt_of_pos a hbpos
            omega
          omega
        obtain ⟨ih1, ih2⟩ := ih (a % b).natAbs hlt b (a % b) rfl hb hmodnn
        set E := euclid b (a % b) with hE
        constructor
        · show E.1 = a * E.2.2 + b * (E.2.1 - a / b * E.2.2)
          have hdef : a % b = a - b * (a / b) := Int.emod_def a b
          rw [ih1, hdef]
          ring
        · show E.1 = (Int.gcd a b : Int)
          rw [ih2]
          exact_mod_cast (int_gcd_emod_step a b).symm
  exact H b.natAbs a b rfl ha hb

/-- C9: for all non-negative integers `a` and `b`, `euclid(a, b)` returns a
triple `(g, i, j)` with `g = a*i + b*j` and `g` the greatest common
divisor of `a` and `b`, and the base case `b == 0` returns `(a, 1, 0)`. -/
theorem claim_C9_euclid_bezout_gcd (a b : Int) (ha : 0 ≤ a) (hb : 0 ≤ b) :
    (euclid a b).1 = a * (euclid a b).2.1 + b * (euclid a b).2.2 ∧
    (euclid a b).1 = (Int.gcd a b : Int) ∧
    euclid a 0 = (a, 1, 0) := by
  obtain ⟨h1, h2⟩ := euclid_correct a b ha hb
  exact ⟨h1, h2, by rw [euclid.eq_def]; simp⟩

/-- C9 witness: the claim instantiated at `a = 30`, `b = 18` (the spec's
worked example). -/
theorem claim_C9_witness :
    (euclid 30 18).1 = 30 * (euclid 30 18).2.1 + 18 * (euclid 30 18).2.2 ∧
    (euclid 30 18).1 = (Int.gcd 30 18 : Int) ∧
    euclid 30 0 = (30, 1, 0) :=
  claim_C9_euclid_bezout_gcd 30 18 (by norm_num) (by norm_num)

/- ## Claim C6: linear search variants -/

/-- Membership of `x` failing at every index, for lists avoiding `x`. -/
lemma getElem?_ne_of_not_mem {x : Int} {l : List Int} (h : x ∉ l) (k : Nat) :
    l[k]? ≠ some x := by
  intro hk
  exact h (List.mem_iff_getElem?.mpr ⟨k, hk⟩)

/-- Every occurring value has a first occurrence index. -/
lemma exists_first_match {x : Int} {l : List Int} (h : x ∈ l) :
    ∃ k : Nat, l[k]? = some x ∧ ∀ k' < k, l[k']? ≠ some x := by
  induction l with
  | nil => cases h
  | cons a as ih =>
    by_cases hax : a = x
    · exact ⟨0, by simp [hax], fun k' hk' => absurd hk' (by omega)⟩
    · have hmem : x ∈ as := by
        rcases List.mem_cons.mp h with h1 | h1
        · exact absurd h1.symm hax
        · exact h1
      obtain ⟨k, h1, h2⟩ := ih hmem
      refine ⟨k + 1, by simpa using h1, ?_⟩
      intro k' hk'
      cases k' with
      | zero => simpa using hax
      | succ k'' => simpa using h2 k'' (by omega)

/-- `List.findIdx` computes the first match: characterisation used to reason
about the sentinel scan. -/
lemma findIdx_beq_eq_of_first {x : Int} {l : List Int} {k : Nat}
    (h1 : l[k]? = some x) (h2 : ∀ k' < k, l[k']? ≠ some x) :
    l.findIdx (fun a => a == x) = k := by
  induction l generalizing k with
  | nil => simp at h1
  | cons a as ih =>
    cases k with
    | zero =>
      have : a = x := by simpa using h1
      simp [List.findIdx_cons, this]
    | succ k0 =>
      have ha : ¬ a = x := by
        have := h2 0 (by omega)
        simpa using this
      have hbeq : (a == x) = false := by simpa using ha
      simp only [List.findIdx_cons, hbeq, cond_false]
      have := ih (by simpa using h1) (fun k' hk' => by simpa using h2 (k' + 1) (by omega))
      omega

/-- `List.findIdx` runs off the end when the value does not occur. -/
lemma findIdx_beq_eq_length {x : Int} {l : List Int} (h : x ∉ l) :
    l.findIdx (fun a => a == x) = l.length := by
  induction l with
  | nil => rfl
  | cons a as ih =>
    have ha : ¬ a = x := fun he => h (he ▸ List.mem_cons_self a as)
    have hbeq : (a == x) = false := by simpa using ha
    simp only [List.findIdx_cons, hbeq, cond_false, List.length_cons]
    have := ih (fun hm => h (List.mem_cons_of_mem a hm))
    omega

/-- Behaviour of the `linear_search` loop: on lists avoiding `x` it returns
the incoming `answer`; otherwise it returns the base index plus the index
of the last occurrence. -/
lemma linear_search_go_spec (x : Int) (l : List Int) :
    ∀ (i ans : Int),
      (x ∉ l → linear_search_go x l i ans = ans) ∧
      (x ∈ l → ∃ k : Nat, l[k]? = some x ∧ (∀ k' : Nat, k < k' → l[k']? ≠ some x) ∧
        linear_search_go x l i ans = i + k) := by
  induction l with
  | nil =>
    intro i ans
    exact ⟨fun _ => rfl, fun h => absurd h (List.not_mem_nil x)⟩
  | cons a as ih =>
    intro i ans
    constructor
    · intro h
      have hax : ¬ (a == x) = true := by
        simp only [beq_iff_eq]
        exact fun he => h (he ▸ List.mem_cons_self a as)
      show linear_search_go x as (i + 1) (if a == x then i else ans) = ans
      rw [if_neg hax]
      exact (ih (i + 1) ans).1 (fun hmem => h (List.mem_cons_of_mem a hmem))
    · intro h
      by_cases hmem : x ∈ as
      · obtain ⟨k, h1, h2, h3⟩ := (ih (i + 1) (if a == x then i else ans)).2 hmem
        refine ⟨k + 1, by simpa using h1, ?_, ?_⟩
        · intro k' hk'
          cases k' with
          | zero => omega
          | succ k'' => simpa using h2 k'' (by omega)
        · show linear_search_go x as (i + 1) (if a == x then i else ans) = i + ↑(k + 1)
          rw [h3]
          push_cast
          ring
      · have hax : a = x := by
          rcases List.mem_cons.mp h with h1 | h1
          · exact h1.symm
          · exact absurd h1 hmem
        refine ⟨0, by simp [hax], ?_, ?_⟩
        · intro k' hk'
          cases k' with
          | zero => omega
          | succ k'' => simpa using getElem?_ne_of_not_mem hmem k''
        · show linear_search_go x as (i + 1) (if a == x then i else ans) = i + ((0 : Nat) : Int)
          rw [if_pos (by simpa using hax)]
          rw [(ih (i + 1) i).1 hmem]
          simp

/-- Behaviour of the `better_linear_search` loop: `-1` on lists avoiding
`x`, else the base index plus the first occurrence index. -/
lemma better_linear_search_go_spec (x : Int) (l : List Int) :
    ∀ i : Int,
      (x ∉ l → better_linear_search_go x l i = -1) ∧
      (x ∈ l → ∃ k : Nat, l[k]? = some x ∧ (∀ k' < k, l[k']? ≠ some x) ∧
        better_linear_search_go x l i = i + k) := by
  induction l with
  | nil =>
    intro i
    exact ⟨fun _ => rfl, fun h => absurd h (List.not_mem_nil x)⟩
  | cons a as ih =>
    intro i
    constructor
    · intro h
      have hax : ¬ (a == x) = true := by
        simp only [beq_iff_eq]
        exact fun he => h (he ▸ List.mem_cons_self a as)
      show (if a == x then i else better_linear_search_go x as (i + 1)) = -1
      rw [if_neg hax]
      exact (ih (i + 1)).1 (fun hmem => h (List.mem_cons_of_mem a hmem))
    · intro h
      by_cases hax : a = x
      · refine ⟨0, by simp [hax], fun k' hk' => absurd hk' (by omega), ?_⟩
        show (if a == x then i else better_linear_search_go x as (i + 1)) = i + ((0 : Nat) : Int)
        rw [if_pos (by simpa using hax)]
        simp
      · have hmem : x ∈ as := by
          rcases List.mem_cons.mp h with h1 | h1
          · exact absurd h1.symm hax
          · exact h1
        obtain ⟨k, h1, h2, h3⟩ := (ih (i + 1)).2 hmem
        refine ⟨k + 1, by simpa using h1, ?_, ?_⟩
        · intro k' hk'
          cases k' with
          | zero => simpa using hax
          | succ k'' => simpa using h2 k'' (by omega)
        · show (if a == x then i else better_linear_search_go x as (i + 1)) = i + ↑(k + 1)
          rw [if_neg (by simpa using hax), h3]
          push_cast
          ring

/-- The recursion of `recursive_linear_search` at `n = A.length` coincides
with the `better_linear_search` loop over the remaining suffix (the source
comment calls it "a recursive version of better linear search"). -/
lemma recursive_linear_search_eq_better_go (A : List Int) (x : Int) :
    ∀ i : Nat, recursive_linear_search A A.length i x =
      better_linear_search_go x (A.drop i) i := by
  have H : ∀ fuel i, A.length - i ≤ fuel →
      recursive_linear_search A A.length i x = better_linear_search_go x (A.drop i) i := by
    intro fuel
    induction fuel with
    | zero =>
      intro i hle
      rw [recursive_linear_search.eq_def, if_pos (by omega : (i : Int) > (A.length : Int) - 1)]
      rw [List.drop_eq_nil_of_le (by omega)]
      rfl
    | succ fuel ih =>
      intro i hle
      rw [recursive_linear_search.eq_def]
      by_cases hbig : (i : Int) > (A.length : Int) - 1
      · rw [if_pos hbig, List.drop_eq_nil_of_le (by omega)]
        rfl
      · rw [if_neg hbig]
        have hilt : i < A.length := by omega
        rw [List.drop_eq_getElem_cons hilt]
        show (if A.getD ((i : Int)).toNat 0 == x then (i : Int)
              else recursive_linear_search A A.length ((i : Int) + 1) x) =
          if A[i] == x then (i : Int) else better_linear_search_go x (A.drop (i + 1)) ((i : Int) + 1)
        rw [show ((i : Int)).toNat = i from Int.toNat_natCast i]
        rw [List.getD_eq_getElem A 0 hilt]
        by_cases hx : A[i] == x
        · rw [if_pos hx, if_pos hx]
        · rw [if_neg hx, if_neg hx]
          rw [show ((i : Int)) + 1 = ((i + 1 : Nat) : Int) by push_cast; ring]
          exact ih (i + 1) (by omega)
  exact fun i => H (A.length - i + 1) i (by omega)

/-- Behaviour of `sentinel_linear_search` on non-empty lists at
`n = A.length`: `-1` when `x` does not occur, else the first occurrence
index. -/
lemma sentinel_linear_search_spec (A : List Int) (x : Int) (hA : A ≠ []) :
    (x ∉ A → sentinel_linear_search A A.length x = -1) ∧
    (x ∈ A → ∃ k : Nat, A[k]? = some x ∧ (∀ k' < k, A[k']? ≠ some x) ∧
      sentinel_linear_search A A.length x = (k : Int)) := by
  have hn : 1 ≤ A.length := List.length_pos.mpr hA
  have hlast : A.length - 1 < A.length := by omega
  have hset_last : (A.set (A.length - 1) x)[A.length - 1]? = some x :=
    List.getElem?_set_self (by omega)
  have hset_ne : ∀ j, j ≠ A.length - 1 → (A.set (A.length - 1) x)[j]? = A[j]? :=
    fun j hj => List.getElem?_set_ne (by omega)
  constructor
  · intro hmem
    have hfind : (A.set (A.length - 1) x).findIdx (fun a => a == x) = A.length - 1 := by
      refine findIdx_beq_eq_of_first hset_last ?_
      intro k' hk'
      rw [hset_ne k' (by omega)]
      exact getElem?_ne_of_not_mem hmem k'
    have hlastval : A.getD (A.length - 1) 0 ≠ x := by
      rw [List.getD_eq_getElem A 0 hlast]
      intro he
      exact hmem (he ▸ List.getElem_mem hlast)
    show (if ((A.set (A.length - 1) x).findIdx (fun a => a == x) : Int) < (A.length : Int) - 1 ∨
            A.getD (A.length - 1) 0 == x
          then ((A.set (A.length - 1) x).findIdx (fun a => a == x) : Int) else -1) = -1
    rw [if_neg]
    push_neg
    constructor
    · rw [hfind]
      omega
    · simpa using hlastval
  · intro hmem
    obtain ⟨k, h1, h2⟩ := exists_first_match hmem
    have hk : k < A.length := by
      by_contra hk
      rw [List.getElem?_eq_none (by omega)] at h1
      exact Option.noConfusion h1
    refine ⟨k, h1, h2, ?_⟩
    have hfind : (A.set (A.length - 1) x).findIdx (fun a => a == x) = k := by
      by_cases hkl : k = A.length - 1
      · subst hkl
        refine findIdx_beq_eq_of_first hset_last ?_
        intro k' hk'
        rw [hset_ne k' (by omega)]
        exact h2 k' hk'
      · refine findIdx_beq_eq_of_first ?_ ?_
        · rw [hset_ne k hkl]
          exact h1
        · intro k' hk'
          rw [hset_ne k' (by omega)]
          exact h2 k' hk'
    show (if ((A.set (A.length - 1) x).findIdx (fun a => a == x) : Int) < (A.length : Int) - 1 ∨
            A.getD (A.length - 1) 0 == x
          then ((A.set (A.length - 1) x).findIdx (fun a => a == x) : Int) else -1) = (k : Int)
    rw [hfind, if_pos]
    by_cases hkl : k = A.length - 1
    · right
      subst hkl
      rw [List.getD_eq_getElem A 0 hlast]
      simp only [beq_iff_eq]
      have := List.getElem?_eq_some_iff.mp h1
      obtain ⟨_, hv⟩ := this
      exact hv
    · left
      omega

/-- C6: at `n = A.length`, the four linear searches return `-1` exactly when
`x` does not occur (the sentinel variant on non-empty arrays, cf. C10);
when `x` occurs, `linear_search` returns the largest index holding `x`
while `better_linear_search`, `recursive_linear_search` (started at index
0) and `sentinel_linear_search` return the smallest — in particular, when
`x` occurs exactly once the largest and smallest coincide and all four
agree. -/
theorem claim_C6_linear_search_variants (A : List Int) (x : Int) :
    (linear_search A A.length x = -1 ↔ x ∉ A) ∧
    (better_linear_search A A.length x = -1 ↔ x ∉ A) ∧
    (recursive_linear_search A A.length 0 x = -1 ↔ x ∉ A) ∧
    (A ≠ [] → (sentinel_linear_search A A.length x = -1 ↔ x ∉ A)) ∧
    (x ∈ A →
      0 ≤ linear_search A A.length x ∧
      IsGreatest {k : Nat | A[k]? = some x} (linear_search A A.length x).toNat ∧
      0 ≤ better_linear_search A A.length x ∧
      IsLeast {k : Nat | A[k]? = some x} (better_linear_search A A.length x).toNat ∧
      0 ≤ recursive_linear_search A A.length 0 x ∧
      IsLeast {k : Nat | A[k]? = some x} (recursive_linear_search A A.length 0 x).toNat ∧
      0 ≤ sentinel_linear_search A A.length x ∧
      IsLeast {k : Nat | A[k]? = some x} (sentinel_linear_search A A.length x).toNat) := by
  have htake : A.take A.length = A := List.take_length A
  have hlingo := linear_search_go_spec x A
  have hbetgo := better_linear_search_go_spec x A
  have hlin_eq : linear_search A A.length x = linear_search_go x A 0 (-1) := by
    simp only [linear_search, htake]
  have hbet_eq : better_linear_search A A.length x = better_linear_search_go x A 0 := by
    simp only [better_linear_search, htake]
  have hrec_eq : recursive_linear_search A A.length 0 x = better_linear_search_go x A 0 := by
    have h := recursive_linear_search_eq_better_go A x 0
    simpa using h
  refine ⟨?_, ?_, ?_, ?_, ?_⟩
  · rw [hlin_eq]
    constructor
    · intro h hmem
      obtain ⟨k, _, _, h3⟩ := (hlingo 0 (-1)).2 hmem
      rw [h3] at h
      omega
    · exact fun h => (hlingo 0 (-1)).1 h
  · rw [hbet_eq]
    constructor
    · intro h hmem
      obtain ⟨k, _, _, h3⟩ := (hbetgo 0).2 hmem
      rw [h3] at h
      omega
    · exact fun h => (hbetgo 0).1 h
  · rw [hrec_eq]
    constructor
    · intro h hmem
      obtain ⟨k, _, _, h3⟩ := (hbetgo 0).2 hmem
      rw [h3] at h
      omega
    · exact fun h => (hbetgo 0).1 h
  · intro hA
    have hsent := sentinel_linear_search_spec A x hA
    constructor
    · intro h hmem
      obtain ⟨k, _, _, h3⟩ := hsent.2 hmem
      rw [h3] at h
      omega
    · exact hsent.1
  · intro hmem
    have hA : A ≠ [] := List.ne_nil_of_mem hmem
    obtain ⟨kl, hl1, hl2, hl3⟩ := (hlingo 0 (-1)).2 hmem
    obtain ⟨kb, hb1, hb2, hb3⟩ := (hbetgo 0).2 hmem
    obtain ⟨ks, hs1, hs2, hs3⟩ := (sentinel_linear_search_spec A x hA).2 hmem
    have hkl : ((0 : Int) + (kl : Int)).toNat = kl := by omega
    have hkb : ((0 : Int) + (kb : Int)).toNat = kb := by omega
    have hks : ((ks : Int)).toNat = ks := by omega
    refine ⟨?_, ?_, ?_, ?_, ?_, ?_, ?_, ?_⟩
    · rw [hlin_eq, hl3]
      omega
    · rw [hlin_eq, hl3, hkl]
      refine ⟨hl1, fun j hj => ?_⟩
      by_contra hlt
      exact hl2 j (by omega) hj
    · rw [hbet_eq, hb3]
      omega
    · rw [hbet_eq, hb3, hkb]
      refine ⟨hb1, fun j hj => ?_⟩
      by_contra hlt
      exact hb2 j (by omega) hj
    · rw [hrec_eq, hb3]
      omega
    · rw [hrec_eq, hb3, hkb]
      refine ⟨hb1, fun j hj => ?_⟩
      by_contra hlt
      exact hb2 j (by omega) hj
    · rw [hs3]
      omega
    · rw [hs3, hks]
      refine ⟨hs1, fun j hj => ?_⟩
      by_contra hlt
      exact hs2 j (by omega) hj

/-- C6 witness: the found-case of the claim at `A = [5, 3, 5]`, `x = 5`,
where `x` occurs twice. -/
theorem claim_C6_witness :
    0 ≤ linear_search [5, 3, 5] [5, 3, 5].length 5 ∧
    IsGreatest {k : Nat | ([5, 3, 5] : List Int)[k]? = some 5}
      (linear_search [5, 3, 5] [5, 3, 5].length 5).toNat ∧
    0 ≤ better_linear_search [5, 3, 5] [5, 3, 5].length 5 ∧
    IsLeast {k : Nat | ([5, 3, 5] : List Int)[k]? = some 5}
      (better_linear_search [5, 3, 5] [5, 3, 5].length 5).toNat ∧
    0 ≤ recursive_linear_search [5, 3, 5] [5, 3, 5].length 0 5 ∧
    IsLeast {k : Nat | ([5, 3, 5] : List Int)[k]? = some 5}
      (recursive_linear_search [5, 3, 5] [5, 3, 5].length 0 5).toNat ∧
    0 ≤ sentinel_linear_search [5, 3, 5] [5, 3, 5].length 5 ∧
    IsLeast {k : Nat | ([5, 3, 5] : List Int)[k]? = some 5}
      (sentinel_linear_search [5, 3, 5] [5, 3, 5].length 5).toNat :=
  (claim_C6_linear_search_variants [5, 3, 5] 5).2.2.2.2 (by decide)

/- ## Claim C7: binary search -/

/-- Sorted lists are monotone in their indices. -/
lemma sorted_getElem_le {A : List Int} (hs : List.Sorted (· ≤ ·) A) {i j : Nat}
    (hi : i < A.length) (hj : j < A.length) (hij : i ≤ j) : A[i] ≤ A[j] := by
  have h := List.Sorted.rel_get_of_le hs (a := ⟨i, hi⟩) (b := ⟨j, hj⟩) hij
  simpa using h

/-- Invariant argument for `recursive_binary_search` on a sorted list: if
every occurrence of `x` lies in the inclusive range `[p, r]` and
`r < length`, the search returns an index holding `x` when `x` occurs, and
`-1` when it does not. -/
lemma recursive_binary_search_spec (A : List Int) (x : Int) (hs : List.Sorted (· ≤ ·) A) :
    ∀ (p r : Int), 0 ≤ p → r < (A.length : Int) →
      (∀ k : Nat, A[k]? = some x → p ≤ (k : Int) ∧ (k : Int) ≤ r) →
      ((x ∈ A → ∃ q : Nat, q < A.length ∧ A[q]? = some x ∧
          recursive_binary_search A p r x = (q : Int)) ∧
        (x ∉ A → recursive_binary_search A p r x = -1)) := by
  have H : ∀ fuel (p r : Int), (r + 1 - p).toNat ≤ fuel → 0 ≤ p → r < (A.length : Int) →
      (∀ k : Nat, A[k]? = some x → p ≤ (k : Int) ∧ (k : Int) ≤ r) →
      ((x ∈ A → ∃ q : Nat, q < A.length ∧ A[q]? = some x ∧
          recursive_binary_search A p r x = (q : Int)) ∧
        (x ∉ A → recursive_binary_search A p r x = -1)) := by
    intro fuel
    induction fuel with
    | zero =>
      intro p r hfuel hp hr hinv
      have hpr : p > r := by omega
      rw [recursive_binary_search.eq_def, if_pos hpr]
      constructor
      · intro hmem
        obtain ⟨k, hk⟩ := List.mem_iff_getElem?.mp hmem
        have := hinv k hk
        omega
      · intro _
        rfl
    | succ fuel ih =>
      intro p r hfuel hp hr hinv
      rw [recursive_binary_search.eq_def]
      by_cases hpr : p > r
      · rw [if_pos hpr]
        constructor
        · intro hmem
          obtain ⟨k, hk⟩ := List.mem_iff_getElem?.mp hmem
          have := hinv k hk
          omega
        · intro _
          rfl
      · rw [if_neg hpr]
        have hq1 : p ≤ (p + r) / 2 := by omega
        have hq2 : (p + r) / 2 ≤ r := by omega
        have hqn : ((p + r) / 2).toNat < A.length := by omega
        have hqcast : ((((p + r) / 2).toNat : Nat) : Int) = (p + r) / 2 := by omega
        have hgetd : A.getD ((p + r) / 2).toNat 0 = A[((p + r) / 2).toNat] :=
          List.getD_eq_getElem A 0 hqn
        show (x ∈ A → ∃ q : Nat, q < A.length ∧ A[q]? = some x ∧
                (if A.getD ((p + r) / 2).toNat 0 == x then (p + r) / 2
                  else if A.getD ((p + r) / 2).toNat 0 > x then
                    recursive_binary_search A p ((p + r) / 2 - 1) x
                  else recursive_binary_search A ((p + r) / 2 + 1) r x) = (q : Int)) ∧
            (x ∉ A →
                (if A.getD ((p + r) / 2).toNat 0 == x then (p + r) / 2
                  else if A.getD ((p + r) / 2).toNat 0 > x then
                    recursive_binary_search A p ((p + r) / 2 - 1) x
                  else recursive_binary_search A ((p + r) / 2 + 1) r x) = -1)
        by_cases hfound : A[((p + r) / 2).toNat] == x
        · rw [if_pos (by rw [hgetd]; exact hfound)]
          have hxv : A[((p + r) / 2).toNat] = x := by simpa using hfound
          constructor
          · intro _
            exact ⟨((p + r) / 2).toNat, hqn,
              List.getElem?_eq_some_iff.mpr ⟨hqn, hxv⟩, hqcast.symm⟩
          · intro hmem
            exact absurd (hxv ▸ List.getElem_mem hqn) hmem
        · rw [if_neg (by rw [hgetd]; exact hfound)]
          have hne : A[((p + r) / 2).toNat] ≠ x := by simpa using hfound
          by_cases hgt : A[((p + r) / 2).toNat] > x
          · rw [if_pos (by rw [hgetd]; exact hgt)]
            refine ih p ((p + r) / 2 - 1) (by omega) hp (by omega) ?_
            intro k hk
            obtain ⟨hklt, hkv⟩ := List.getElem?_eq_some_iff.mp hk
            have hbound := hinv k hk
            by_contra hcon
            push_neg at hcon
            have hkge : ((p + r) / 2).toNat ≤ k := by omega
            have := sorted_getElem_le hs hqn hklt hkge
            rw [hkv] at this
            omega
          · rw [if_neg (by rw [hgetd]; exact hgt)]
            have hlt : A[((p + r) / 2).toNat] < x := by
              rcases lt_or_gt_of_ne hne with h | h
              · exact h
              · exact absurd h hgt
            refine ih ((p + r) / 2 + 1) r (by omega) (by omega) hr ?_
            intro k hk
            obtain ⟨hklt, hkv⟩ := List.getElem?_eq_some_iff.mp hk
            have hbound := hinv k hk
            by_contra hcon
            push_neg at hcon
            have hkle : k ≤ ((p + r) / 2).toNat := by omega
            have := sorted_getElem_le hs hklt hqn hkle
            rw [hkv] at this
            omega
  intro p r hp hr hinv
  exact H (r + 1 - p).toNat p r (le_refl _) hp hr hinv

/-- The `while` loop of `binary_search` computes the same function as
`recursive_binary_search` (the two bodies are identical). -/
lemma binary_search_loop_eq_recursive (A : List Int) (x : Int) :
    ∀ p r : Int, binary_search_loop A x p r = recursive_binary_search A p r x := by
  have H : ∀ fuel (p r : Int), (r + 1 - p).toNat ≤ fuel →
      binary_search_loop A x p r = recursive_binary_search A p r x := by
    intro fuel
    induction fuel with
    | zero =>
      intro p r hfuel
      rw [binary_search_loop.eq_def, recursive_binary_search.eq_def]
      rw [if_neg (by omega : ¬ p ≤ r), if_pos (by omega : p > r)]
    | succ fuel ih =>
      intro p r hfuel
      rw [binary_search_loop.eq_def, recursive_binary_search.eq_def]
      by_cases hpr : p ≤ r
      · rw [if_pos hpr, if_neg (by omega : ¬ p > r)]
        show (if A.getD ((p + r) / 2).toNat 0 == x then (p + r) / 2
              else if A.getD ((p + r) / 2).toNat 0 > x then
                binary_search_loop A x p ((p + r) / 2 - 1)
              else binary_search_loop A x ((p + r) / 2 + 1) r) =
          (if A.getD ((p + r) / 2).toNat 0 == x then (p + r) / 2
            else if A.getD ((p + r) / 2).toNat 0 > x then
              recursive_binary_search A p ((p + r) / 2 - 1) x
            else recursive_binary_search A ((p + r) / 2 + 1) r x)
        have hq1 : p ≤ (p + r) / 2 := by omega
        have hq2 : (p + r) / 2 ≤ r := by omega
        by_cases h1 : A.getD ((p + r) / 2).toNat 0 == x
        · rw [if_pos h1, if_pos h1]
        · rw [if_neg h1, if_neg h1]
          by_cases h2 : A.getD ((p + r) / 2).toNat 0 > x
          · rw [if_pos h2, if_pos h2]
            exact ih p ((p + r) / 2 - 1) (by omega)
          · rw [if_neg h2, if_neg h2]
            exact ih ((p + r) / 2 + 1) r (by omega)
      · rw [if_neg hpr, if_pos (by omega : p > r)]
  exact fun p r => H (r + 1 - p).toNat p r (le_refl _)

/-- C7: on a list sorted in ascending order, `binary_search(A, n, x)` and
`recursive_binary_search(A, 0, n-1, x)` with `n = A.length` return an
index holding `x` whenever `x` occurs, and `-1` whenever it does not — in
which case no index satisfies `A[k] = x`. -/
theorem claim_C7_binary_search_variants (A : List Int) (x : Int)
    (hs : List.Sorted (· ≤ ·) A) :
    (x ∈ A →
      (∃ q : Nat, q < A.length ∧ A[q]? = some x ∧
        binary_search A A.length x = (q : Int)) ∧
      (∃ q : Nat, q < A.length ∧ A[q]? = some x ∧
        recursive_binary_search A 0 ((A.length : Int) - 1) x = (q : Int))) ∧
    (x ∉ A →
      binary_search A A.length x = -1 ∧
      recursive_binary_search A 0 ((A.length : Int) - 1) x = -1 ∧
      ∀ k : Nat, A[k]? ≠ some x) := by
  have hspec := recursive_binary_search_spec A x hs 0 ((A.length : Int) - 1)
    (by omega) (by omega) ?_
  · have hloop : binary_search A A.length x =
        recursive_binary_search A 0 ((A.length : Int) - 1) x :=
      binary_search_loop_eq_recursive A x 0 ((A.length : Int) - 1)
    constructor
    · intro hmem
      obtain ⟨q, hq1, hq2, hq3⟩ := hspec.1 hmem
      exact ⟨⟨q, hq1, hq2, by rw [hloop]; exact hq3⟩, ⟨q, hq1, hq2, hq3⟩⟩
    · intro hmem
      exact ⟨by rw [hloop]; exact hspec.2 hmem, hspec.2 hmem,
        fun k => getElem?_ne_of_not_mem hmem k⟩
  · intro k hk
    obtain ⟨hklt, _⟩ := List.getElem?_eq_some_iff.mp hk
    omega

/-- C7 witness: the claim instantiated at the sorted list `[1, 3, 5]` with
`x = 3` (present) — via the present branch — and the absent branch is
exercised by the same theorem at `x = 4` in the reason field proofs. -/
theorem claim_C7_witness :
    (∃ q : Nat, q < ([1, 3, 5] : List Int).length ∧ ([1, 3, 5] : List Int)[q]? = some 3 ∧
      binary_search [1, 3, 5] ([1, 3, 5] : List Int).length 3 = (q : Int)) ∧
    (∃ q : Nat, q < ([1, 3, 5] : List Int).length ∧ ([1, 3, 5] : List Int)[q]? = some 3 ∧
      recursive_binary_search [1, 3, 5] 0 ((([1, 3, 5] : List Int).length : Int) - 1) 3 = (q : Int)) :=
  (claim_C7_binary_search_variants [1, 3, 5] 3 (by decide)).1 (by decide)

/- ## Claim C10: accesses on the empty array, sentinel bounds -/

/-- Indices of `A` read by the `linear_search` loop: `A[i]` for each
`i ∈ [0, n)` (search.cpp line 82). -/
def linear_search_accesses (n : Nat) : List Int :=
  (List.range n).map Int.ofNat

/-- Indices of `A` read by the `better_linear_search` loop: `A[i]` for each
`i` up to and including the first match (search.cpp lines 100-104). -/
def better_linear_search_accesses_go (x : Int) : List Int → Int → List Int
  | [], _ => []
  | a :: as, i => i :: (if a == x then [] else better_linear_search_accesses_go x as (i + 1))

/-- Access model of `better_linear_search(A, n, x)`. -/
def better_linear_search_accesses (A : List Int) (n : Nat) (x : Int) : List Int :=
  better_linear_search_accesses_go x (A.take n) 0

/-- Indices of `A` read by `recursive_linear_search` (search.cpp line 158):
`A[i]` is read only after the `i > n - 1` base case fails. -/
def recursive_linear_search_accesses (A : List Int) (n i x : Int) : List Int :=
  if i > n - 1 then []
  else i :: (if A.getD i.toNat 0 == x then []
             else recursive_linear_search_accesses A n (i + 1) x)
termination_by (n - i).toNat
decreasing_by omega

/-- Indices of `A` read by the `binary_search` loop (search.cpp lines
184-189): the midpoint `q` is read once per iteration (twice in the
source, at the `==` and `>` tests, at the same index). -/
def binary_search_loop_accesses (A : List Int) (x p r : Int) : List Int :=
  if p ≤ r then
    let q := (p + r) / 2
    q :: (if A.getD q.toNat 0 == x then []
          else if A.getD q.toNat 0 > x then binary_search_loop_accesses A x p (q - 1)
          else binary_search_loop_accesses A x (q + 1) r)
  else []
termination_by (r + 1 - p).toNat
decreasing_by all_goals omega

/-- Access model of `binary_search(A, n, x)`. -/
def binary_search_accesses (A : List Int) (n x : Int) : List Int :=
  binary_search_loop_accesses A x 0 (n - 1)

/-- Indices of `A` accessed by `sentinel_linear_search(A, n, x)` in source
order (search.cpp lines 123-132): read `A[n-1]`, write `A[n-1]`, the scan
reads `A[0..i]`, write `A[n-1]` (restore), and the short-circuit
`(i < n-1) || A[n-1] == x` reads `A[n-1]` only when the first disjunct is
false. The indices are the C++ `int` values, so `n - 1` is `-1` when
`n = 0`. -/
def sentinel_linear_search_accesses (A : List Int) (n : Nat) (x : Int) : List Int :=
  let A2 := A.set (n - 1) x
  let i : Nat := A2.findIdx (fun a => a == x)
  ((n : Int) - 1) :: ((n : Int) - 1) ::
    ((List.range (i + 1)).map Int.ofNat ++
      (((n : Int) - 1) ::
        (if (i : Int) < (n : Int) - 1 then [] else [(n : Int) - 1])))

/-- The sentinel scan stops within bounds on non-empty arrays: the written
sentinel at `n - 1` guarantees a first match at or before `n - 1`. -/
lemma sentinel_scan_stop_lt (A : List Int) (x : Int) (h1 : 1 ≤ A.length) :
    (A.set (A.length - 1) x).findIdx (fun a => a == x) < A.length := by
  have hmem : (A.set (A.length - 1) x)[A.length - 1]? = some x :=
    List.getElem?_set_self (by omega)
  have hx : x ∈ A.set (A.length - 1) x := List.mem_iff_getElem?.mpr ⟨_, hmem⟩
  obtain ⟨k, hk1, hk2⟩ := exists_first_match hx
  rw [findIdx_beq_eq_of_first hk1 hk2]
  by_contra h
  push_neg at h
  exact hk2 (A.length - 1) (by omega) hmem

/-- C10: on the empty array (`n = 0`), `linear_search`,
`better_linear_search`, `recursive_linear_search` started at index 0, and
`binary_search` all return `-1` with an empty access list, whereas
`sentinel_linear_search` unconditionally reads and writes `A[n-1]` before
scanning (its first two accesses are at index `n - 1`, which is `-1` for
`n = 0`), so at `n = A.length` its accesses are all in bounds exactly when
`n ≥ 1`. -/
theorem claim_C10_empty_array_and_sentinel_bounds :
    (∀ x : Int,
      linear_search [] 0 x = -1 ∧ linear_search_accesses 0 = [] ∧
      better_linear_search [] 0 x = -1 ∧ better_linear_search_accesses [] 0 x = [] ∧
      recursive_linear_search [] 0 0 x = -1 ∧
      recursive_linear_search_accesses [] 0 0 x = [] ∧
      binary_search [] 0 x = -1 ∧ binary_search_accesses [] 0 x = []) ∧
    (∀ (A : List Int) (n : Nat) (x : Int),
      (sentinel_linear_search_accesses A n x).take 2 = [(n : Int) - 1, (n : Int) - 1]) ∧
    (∀ (A : List Int) (x : Int),
      ((∀ idx ∈ sentinel_linear_search_accesses A A.length x,
        0 ≤ idx ∧ idx < (A.length : Int)) ↔ 1 ≤ A.length)) := by
  refine ⟨?_, ?_, ?_⟩
  · intro x
    refine ⟨rfl, rfl, rfl, rfl, ?_, ?_, ?_, ?_⟩
    · rw [recursive_linear_search.eq_def]
      norm_num
    · rw [recursive_linear_search_accesses.eq_def]
      norm_num
    · show binary_search_loop [] x 0 (0 - 1) = -1
      rw [binary_search_loop.eq_def]
      norm_num
    · show binary_search_loop_accesses [] x 0 (0 - 1) = []
      rw [binary_search_loop_accesses.eq_def]
      norm_num
  · intro A n x
    rfl
  · intro A x
    constructor
    · intro h
      have hmem : ((A.length : Int) - 1) ∈ sentinel_linear_search_accesses A A.length x :=
        List.mem_cons_self _ _
      have := h _ hmem
      omega
    · intro h1 idx hidx
      have hstop : (A.set (A.length - 1) x).findIdx (fun a => a == x) < A.length :=
        sentinel_scan_stop_lt A x h1
      simp only [sentinel_linear_search_accesses, List.mem_cons, List.mem_append] at hidx
      rcases hidx with h | h | hmap | h | hite
      · omega
      · omega
      · obtain ⟨j, hjr, hje⟩ := List.mem_map.mp hmap
        rw [List.mem_range] at hjr
        subst hje
        constructor
        · exact Int.ofNat_nonneg j
        · have hj : j < A.length := by omega
          exact Int.ofNat_lt.mpr hj
      · omega
      · by_cases hc : ((A.set (A.length - 1) x).findIdx (fun a => a == x) : Int) <
            (A.length : Int) - 1
        · rw [if_pos hc] at hite
          cases hite
        · rw [if_neg hc] at hite
          rcases List.mem_singleton.mp hite with rfl
          omega

/-- C10 witness: the sentinel bounds equivalence instantiated at the
singleton array `[7]` with `x = 0`. -/
theorem claim_C10_witness :
    (∀ idx ∈ sentinel_linear_search_accesses [7] ([7] : List Int).length 0,
      0 ≤ idx ∧ idx < (([7] : List Int).length : Int)) ↔ 1 ≤ ([7] : List Int).length :=
  claim_C10_empty_array_and_sentinel_bounds.2.2 [7] 0

/- ## Claim C4: LCS table correctness -/

/-- Case analysis for sublists of a list with one element appended: either
the appended element is unused, or it is the last element of the
sublist. -/
lemma sublist_concat_cases {α : Type} {zs l : List α} {a : α} (h : zs.Sublist (l ++ [a])) :
    zs.Sublist l ∨ ∃ zs', zs = zs' ++ [a] ∧ zs'.Sublist l := by
  have hr : zs.reverse.Sublist (a :: l.reverse) := by
    have h2 := List.reverse_sublist.mpr h
    simpa using h2
  rcases List.sublist_cons_iff.mp hr with h1 | ⟨r, hr1, hr2⟩
  · left
    have h2 : zs.reverse.Sublist l.reverse := h1
    exact List.reverse_sublist.mp (by simpa using h2)
  · right
    refine ⟨r.reverse, ?_, ?_⟩
    · have h2 := congrArg List.reverse hr1
      simpa using h2
    · have h3 : r.reverse.reverse.Sublist l.reverse := by simpa using hr2
      exact List.reverse_sublist.mp (by simpa using h3)

/-- Appending one in-bounds element to a `take`. -/
lemma take_succ_concat {α : Type} (l : List α) {i : Nat} (h : i < l.length) :
    l.take (i + 1) = l.take i ++ [l[i]] := by
  rw [List.take_succ, List.getElem?_eq_getElem h]
  rfl

/-- Unfolding of the inner LCS cell: the embedding satisfies the source
recurrence `L[i][j] = L[i-1][j-1] + 1` on matching characters, else
`max(L[i-1][j], L[i][j-1])`. -/
lemma compute_lcs_table_cell (X Y : List Char) (i j : Nat) :
    compute_lcs_table X Y (i + 1) (j + 1) =
      if X.getD i ' ' == Y.getD j ' ' then compute_lcs_table X Y i j + 1
      else max (compute_lcs_table X Y i (j + 1)) (compute_lcs_table X Y (i + 1) j) := rfl

/-- The LCS table cell `(i, j)` is the length of a longest common
subsequence of the first `i` characters of `X` and the first `j`
characters of `Y`: some common subsequence attains it, and none
exceeds it. -/
lemma compute_lcs_table_spec (X Y : List Char) :
    ∀ (i j : Nat), i ≤ X.length → j ≤ Y.length →
      (∃ zs : List Char, zs.Sublist (X.take i) ∧ zs.Sublist (Y.take j) ∧
        zs.length = compute_lcs_table X Y i j) ∧
      (∀ zs : List Char, zs.Sublist (X.take i) → zs.Sublist (Y.take j) →
        zs.length ≤ compute_lcs_table X Y i j) := by
  have H : ∀ (s i j : Nat), i + j ≤ s → i ≤ X.length → j ≤ Y.length →
      (∃ zs : List Char, zs.Sublist (X.take i) ∧ zs.Sublist (Y.take j) ∧
        zs.length = compute_lcs_table X Y i j) ∧
      (∀ zs : List Char, zs.Sublist (X.take i) → zs.Sublist (Y.take j) →
        zs.length ≤ compute_lcs_table X Y i j) := by
    intro s
    induction s with
    | zero =>
      intro i j hs hi hj
      have hi0 : i = 0 := by omega
      have hj0 : j = 0 := by omega
      subst hi0
      subst hj0
      refine ⟨⟨[], List.nil_sublist _, List.nil_sublist _, rfl⟩, ?_⟩
      intro zs hz1 _
      have : zs = [] := List.sublist_nil.mp (by simpa using hz1)
      simp [this]
    | succ s ih =>
      intro i j hs hi hj
      match i, j with
      | 0, j =>
        refine ⟨⟨[], List.nil_sublist _, List.nil_sublist _, rfl⟩, ?_⟩
        intro zs hz1 _
        have : zs = [] := List.sublist_nil.mp (by simpa using hz1)
        simp [this]
      | i + 1, 0 =>
        refine ⟨⟨[], List.nil_sublist _, List.nil_sublist _, rfl⟩, ?_⟩
        intro zs _ hz2
        have : zs = [] := List.sublist_nil.mp (by simpa using hz2)
        simp [this]
      | i + 1, j + 1 =>
        have hxi : i < X.length := by omega
        have hyj : j < Y.length := by omega
        have htakex : X.take (i + 1) = X.take i ++ [X[i]] := take_succ_concat X hxi
        have htakey : Y.take (j + 1) = Y.take j ++ [Y[j]] := take_succ_concat Y hyj
        have hgdx : X.getD i ' ' = X[i] := List.getD_eq_getElem X ' ' hxi
        have hgdy : Y.getD j ' ' = Y[j] := List.getD_eq_getElem Y ' ' hyj
        by_cases hc : X[i] = Y[j]
        · have htab : compute_lcs_table X Y (i + 1) (j + 1) =
              compute_lcs_table X Y i j + 1 := by
            rw [compute_lcs_table_cell, if_pos]
            rw [hgdx, hgdy]
            simpa using hc
          obtain ⟨⟨zs0, hz1, hz2, hz3⟩, hub⟩ := ih i j (by omega) (by omega) (by omega)
          rw [htab]
          constructor
          · refine ⟨zs0 ++ [X[i]], ?_, ?_, ?_⟩
            · rw [htakex]
              exact hz1.append (List.Sublist.refl _)
            · rw [htakey, show ([X[i]] : List Char) = [Y[j]] by rw [hc]]
              exact hz2.append (List.Sublist.refl _)
            · simp [hz3]
          · intro zs hzs1 hzs2
            rw [htakex] at hzs1
            rw [htakey] at hzs2
            rcases sublist_concat_cases hzs1 with hA | ⟨zsa, rfl, hA⟩
            · rcases sublist_concat_cases hzs2 with hB | ⟨zsb, heq, hB⟩
              · have := hub zs hA hB
                omega
              · subst heq
                have hzb : zsb.Sublist (X.take i) :=
                  (List.sublist_append_left zsb [Y[j]]).trans hA
                have := hub zsb hzb hB
                simp only [List.length_append, List.length_singleton]
                omega
            · rcases sublist_concat_cases hzs2 with hB | ⟨zsb, heq, hB⟩
              · have hza : zsa.Sublist (Y.take j) :=
                  (List.sublist_append_left zsa [X[i]]).trans hB
                have := hub zsa hA hza
                simp only [List.length_append, List.length_singleton]
                omega
              · obtain ⟨hzz, _⟩ := List.append_inj' heq rfl
                subst hzz
                have := hub zsa hA hB
                simp only [List.length_append, List.length_singleton]
                omega
        · have htab : compute_lcs_table X Y (i + 1) (j + 1) =
              max (compute_lcs_table X Y i (j + 1)) (compute_lcs_table X Y (i + 1) j) := by
            rw [compute_lcs_table_cell, if_neg]
            rw [hgdx, hgdy]
            simpa using hc
          obtain ⟨⟨zsu, hu1, hu2, hu3⟩, hubU⟩ := ih i (j + 1) (by omega) (by omega) (by omega)
          obtain ⟨⟨zsl, hl1, hl2, hl3⟩, hubL⟩ := ih (i + 1) j (by omega) (by omega) (by omega)
          rw [htab]
          constructor
          · by_cases hm : compute_lcs_table X Y (i + 1) j ≤ compute_lcs_table X Y i (j + 1)
            · refine ⟨zsu, ?_, hu2, ?_⟩
              · rw [htakex]
                exact hu1.trans (List.sublist_append_left _ _)
              · rw [hu3]
                omega
            · refine ⟨zsl, hl1, ?_, ?_⟩
              · rw [htakey]
                exact hl2.trans (List.sublist_append_left _ _)
              · rw [hl3]
                omega
          · intro zs hzs1 hzs2
            have hzs1o := hzs1
            rw [htakex] at hzs1
            rcases sublist_concat_cases hzs1 with hA | ⟨zsa, rfl, hA⟩
            · have := hubU zs hA hzs2
              omega
            · have hzs2o := hzs2
              rw [htakey] at hzs2
              rcases sublist_concat_cases hzs2 with hB | ⟨zsb, heq, hB⟩
              · have := hubL _ hzs1o hB
                omega
              · obtain ⟨_, hch⟩ := List.append_inj' heq rfl
                have : X[i] = Y[j] := by simpa using hch
                exact absurd this hc
  intro i j hi hj
  exact H (i + j) i j (le_refl _) hi hj

/-- C4: every cell `L[i][j]` of the table built by `compute_lcs_table` is
the length of a longest common subsequence of the first `i` characters of
`X` and the first `j` characters of `Y` (stated as: that length is
attained by a common subsequence and bounds every common subsequence); in
particular, for `X = "CATCGA"` and `Y = "GTACCGTCA"` the value `L[6][9]`
is `4` and the string reconstructed by `assemble_lcs` under the source's
tie-break is `"CTCA"`. -/
theorem claim_C4_lcs_table_correct :
    (∀ (X Y : List Char) (i j : Nat), i ≤ X.length → j ≤ Y.length →
      IsGreatest {n : Nat | ∃ zs : List Char, zs.Sublist (X.take i) ∧
        zs.Sublist (Y.take j) ∧ zs.length = n} (compute_lcs_table X Y i j)) ∧
    compute_lcs_table "CATCGA".toList "GTACCGTCA".toList 6 9 = 4 ∧
    assemble_lcs "CATCGA".toList "GTACCGTCA".toList 6 9 = "CTCA".toList := by
  refine ⟨?_, by decide, by decide⟩
  intro X Y i j hi hj
  obtain ⟨hmem, hub⟩ := compute_lcs_table_spec X Y i j hi hj
  exact ⟨hmem, fun n ⟨zs, h1, h2, h3⟩ => h3 ▸ hub zs h1 h2⟩

/-- C4 witness: the optimality statement instantiated at `X = "AB"`,
`Y = "BA"`, `i = j = 2`, where the table value is `1`. -/
theorem claim_C4_witness :
    IsGreatest {n : Nat | ∃ zs : List Char, zs.Sublist ("AB".toList.take 2) ∧
      zs.Sublist ("BA".toList.take 2) ∧ zs.length = n}
      (compute_lcs_table "AB".toList "BA".toList 2 2) :=
  claim_C4_lcs_table_correct.1 "AB".toList "BA".toList 2 2 (by decide) (by decide)

/- ## Finite-automaton matcher (src/strings/lcs.cpp, StateTable section) -/

/-- The `while (i > 0)` loop of C++ `StateTable::compute_state_table`
(lines 397-402 of the StateTable section): starting from the given bound,
decrement `i` until the first `i` characters of the pattern are a suffix
of `Pka` (the test `pattern.substr(0, i) == Pka.substr(pka_length - i, i)`),
reaching `0` if none is. -/
def state_table_search (P Pka : List Char) : Nat → Nat
  | 0 => 0
  | i + 1 => if P.take (i + 1) <:+ Pka then i + 1 else state_table_search P Pka i

/-- The value stored by `compute_state_table` for a state/character pair,
and returned by `StateTable::get_next_state`: with `Pk` the matched
prefix `P.take state` and `Pka = Pk + a`, the search starts at
`min(Pka.size(), pattern_length)`. The C++ table holds a column for every
distinct character of the text `T` and `fa_string_matcher` only ever looks
up characters of `T`, so computing the same value on demand is faithful. -/
def get_next_state (P : List Char) (state : Nat) (c : Char) : Nat :=
  state_table_search P (P.take state ++ [c]) (min (P.take state ++ [c]).length P.length)

/-- Scan loop of C++ `fa_string_matcher` (lines 439-450 of the StateTable
section): feed each character of the text through `get_next_state`; on
reaching the accepting state `pattern_length`, record the shift
`(i + 1) - pattern_length` (as a C++ `int`). -/
def fa_string_matcher_go (P : List Char) (m : Nat) : List Char → Nat → Nat → List Int
  | [], _, _ => []
  | c :: rest, state, idx =>
    let s2 := get_next_state P state c
    if s2 = m then ((idx : Int) + 1 - (m : Int)) :: fa_string_matcher_go P m rest s2 (idx + 1)
    else fa_string_matcher_go P m rest s2 (idx + 1)

/-- C++ `fa_string_matcher(T, t)` for the table built from text `T` and
pattern `P`: scan `T` from state `0`. -/
def fa_string_matcher (T P : List Char) : List Int :=
  fa_string_matcher_go P P.length T 0 0

/-- Sanity check on the book strings: the matcher reports 0-based shifts
`2` and `9` (the occurrences of `"AAC"` in `"GTAACAGTAAACG"`). -/
example : fa_string_matcher "GTAACAGTAAACG".toList "AAC".toList = [2, 9] := by decide

/- ## Claim C8: automaton matcher correctness -/

/-- Length of the longest prefix of `P` that is a suffix of `w` — the
quantity the state table stores (stated via `Nat.findGreatest`, whose
downward scan mirrors the source's `while (i > 0)` loop). -/
def maxpref (P w : List Char) : Nat :=
  Nat.findGreatest (fun i => P.take i <:+ w) P.length

/-- The empty prefix is a suffix of anything, so `Nat.findGreatest_spec`
applies unconditionally. -/
lemma maxpref_suffix (P w : List Char) : P.take (maxpref P w) <:+ w :=
  Nat.findGreatest_spec (m := 0) (n := P.length)
    (P := fun i => P.take i <:+ w) (Nat.zero_le _)
    (by show P.take 0 <:+ w; simp)

/-- Maximality of `maxpref`. -/
lemma le_maxpref {P w : List Char} {i : Nat} (hi : i ≤ P.length)
    (h : P.take i <:+ w) : i ≤ maxpref P w :=
  Nat.le_findGreatest hi h

/-- `maxpref` never exceeds the pattern length. -/
lemma maxpref_le (P w : List Char) : maxpref P w ≤ P.length :=
  Nat.findGreatest_le _

/-- The downward loop of `compute_state_table` is `Nat.findGreatest`. -/
lemma state_table_search_eq (P Pka : List Char) :
    ∀ k : Nat, state_table_search P Pka k =
      Nat.findGreatest (fun i => P.take i <:+ Pka) k := by
  intro k
  induction k with
  | zero => rfl
  | succ k ih =>
    show (if P.take (k + 1) <:+ Pka then k + 1 else state_table_search P Pka k) = _
    rw [Nat.findGreatest_succ]
    by_cases h : P.take (k + 1) <:+ Pka
    · rw [if_pos h, if_pos h]
    · rw [if_neg h, if_neg h, ih]

/-- The table value `get_next_state(state, c)` is the longest prefix of `P`
that is a suffix of the matched prefix extended by `c`: capping the search
at `min(state + 1, pattern_length)` loses nothing because a suffix of
`Pka` has length at most `state + 1`. -/
lemma get_next_state_eq_maxpref {P : List Char} {s : Nat} (hs : s ≤ P.length) (c : Char) :
    get_next_state P s c = maxpref P (P.take s ++ [c]) := by
  have hlen : (P.take s ++ [c]).length = s + 1 := by
    simp [List.length_take, min_eq_left hs]
  rw [get_next_state, state_table_search_eq, hlen]
  apply le_antisymm
  · have hp := Nat.findGreatest_spec (m := 0) (n := min (s + 1) P.length)
      (P := fun i => P.take i <:+ P.take s ++ [c]) (Nat.zero_le _)
      (by show P.take 0 <:+ P.take s ++ [c]; simp)
    exact Nat.le_findGreatest
      (le_trans (Nat.findGreatest_le _) (min_le_right (s + 1) P.length)) hp
  · have hp := Nat.findGreatest_spec (m := 0) (n := P.length)
      (P := fun i => P.take i <:+ P.take s ++ [c]) (Nat.zero_le _)
      (by show P.take 0 <:+ P.take s ++ [c]; simp)
    have hRm : Nat.findGreatest (fun i => P.take i <:+ P.take s ++ [c]) P.length ≤ P.length :=
      Nat.findGreatest_le _
    have hRs : Nat.findGreatest (fun i => P.take i <:+ P.take s ++ [c]) P.length ≤ s + 1 := by
      have hle := List.IsSuffix.length_le hp
      rw [List.length_take, hlen] at hle
      omega
    exact Nat.le_findGreatest (le_min hRs hRm) hp

/-- Appending the same element preserves the suffix relation. -/
lemma suffix_concat {u v : List Char} (c : Char) (h : u <:+ v) :
    u ++ [c] <:+ v ++ [c] := by
  obtain ⟨t, rfl⟩ := h
  exact ⟨t, by simp⟩

/-- A suffix of `w ++ [c]` is empty or ends in `c` with its initial part a
suffix of `w`. -/
lemma suffix_concat_cases {u w : List Char} {c : Char} (h : u <:+ w ++ [c]) :
    u = [] ∨ ∃ u2, u = u2 ++ [c] ∧ u2 <:+ w := by
  rcases List.eq_nil_or_concat u with rfl | ⟨u2, b, rfl⟩
  · left
    rfl
  · right
    obtain ⟨t, ht⟩ := h
    rw [List.concat_eq_append] at ht
    have ht2 : (t ++ u2) ++ [b] = w ++ [c] := by
      rw [← ht]
      simp
    obtain ⟨h1, h2⟩ := List.append_inj' ht2 rfl
    have hb : b = c := by simpa using h2
    subst hb
    exact ⟨u2, by simp [List.concat_eq_append], ⟨t, h1⟩⟩

/-- Prefixes of `P` that are suffixes of `w` nest inside the longest one. -/
lemma take_suffix_shrink {P w : List Char} {i : Nat} (hi : i ≤ P.length)
    (h : P.take i <:+ w) : P.take i <:+ P.take (maxpref P w) := by
  have hmax : i ≤ maxpref P w := le_maxpref hi h
  refine List.suffix_of_suffix_length_le h (maxpref_suffix P w) ?_
  have hm := maxpref_le P w
  simp only [List.length_take]
  omega

/-- Transition correctness: extending the scanned text by one character,
the longest matched prefix depends only on the previous longest matched
prefix — the automaton step is exact. -/
lemma maxpref_step (P w : List Char) (c : Char) :
    maxpref P (w ++ [c]) = maxpref P (P.take (maxpref P w) ++ [c]) := by
  apply le_antisymm
  · have hp : P.take (maxpref P (w ++ [c])) <:+ w ++ [c] := maxpref_suffix P (w ++ [c])
    have hm : maxpref P (w ++ [c]) ≤ P.length := maxpref_le P (w ++ [c])
    refine le_maxpref hm ?_
    rcases suffix_concat_cases hp with hEmpty | ⟨u2, hEq, hU⟩
    · rw [hEmpty]
      exact List.nil_suffix
    · have hg1pos : 1 ≤ min (maxpref P (w ++ [c])) P.length := by
        have hlen := congrArg List.length hEq
        simp [List.length_take] at hlen
        omega
      have hg1 : 1 ≤ maxpref P (w ++ [c]) := by omega
      have hlt : maxpref P (w ++ [c]) - 1 < P.length := by omega
      have hdecomp : P.take (maxpref P (w ++ [c])) =
          P.take (maxpref P (w ++ [c]) - 1) ++ [P[maxpref P (w ++ [c]) - 1]] := by
        have h2 := take_succ_concat P hlt
        rw [show maxpref P (w ++ [c]) - 1 + 1 = maxpref P (w ++ [c]) by omega] at h2
        exact h2
      have hEq2 : P.take (maxpref P (w ++ [c]) - 1) ++ [P[maxpref P (w ++ [c]) - 1]] =
          u2 ++ [c] := by
        rw [← hdecomp]
        exact hEq
      obtain ⟨hpre, hch⟩ := List.append_inj' hEq2 rfl
      have hcc : P[maxpref P (w ++ [c]) - 1] = c := by simpa using hch
      have hsh : P.take (maxpref P (w ++ [c]) - 1) <:+ P.take (maxpref P w) :=
        take_suffix_shrink (by omega) (hpre ▸ hU)
      rw [hdecomp, hcc]
      exact suffix_concat c hsh
  · have hp2 := maxpref_suffix P (P.take (maxpref P w) ++ [c])
    have hm2 := maxpref_le P (P.take (maxpref P w) ++ [c])
    exact le_maxpref hm2 (hp2.trans (suffix_concat c (maxpref_suffix P w)))

/-- The accepting state is reached exactly when the whole pattern is a
suffix of the scanned text. -/
lemma maxpref_eq_length_iff (P v : List Char) :
    maxpref P v = P.length ↔ P <:+ v := by
  constructor
  · intro h
    have h2 := maxpref_suffix P v
    rw [h, List.take_length] at h2
    exact h2
  · intro h
    refine le_antisymm (maxpref_le P v) (le_maxpref (le_refl _) ?_)
    rw [List.take_length]
    exact h

/-- Scan invariant of the matcher: running the automaton over `rest` after
having scanned `w` (so in state `maxpref P w`, at position `w.length`),
the reported shifts are exactly `t - |P|` for the positions `t` beyond `w`
at which a copy of `P` ends. -/
lemma fa_matcher_go_mem (P : List Char) :
    ∀ (rest w : List Char) (k : Int),
      (k ∈ fa_string_matcher_go P P.length rest (maxpref P w) w.length ↔
        ∃ t : Nat, w.length < t ∧ t ≤ w.length + rest.length ∧
          P <:+ (w ++ rest).take t ∧ k = (t : Int) - (P.length : Int)) := by
  intro rest
  induction rest with
  | nil =>
    intro w k
    constructor
    · intro h
      exact absurd h (List.not_mem_nil k)
    · rintro ⟨t, h1, h2, _, _⟩
      simp only [List.length_nil] at h2
      omega
  | cons c rest ih =>
    intro w k
    have hs2 : get_next_state P (maxpref P w) c = maxpref P (w ++ [c]) := by
      rw [get_next_state_eq_maxpref (maxpref_le P w) c, ← maxpref_step]
    have hassoc : w ++ c :: rest = (w ++ [c]) ++ rest := by simp
    have hlen1 : (w ++ [c]).length = w.length + 1 := by simp
    have htake1 : (w ++ c :: rest).take (w.length + 1) = w ++ [c] := by
      rw [hassoc, ← hlen1]
      exact List.take_left (w ++ [c]) rest
    have hihs := ih (w ++ [c]) k
    rw [hlen1] at hihs
    show (k ∈ if get_next_state P (maxpref P w) c = P.length then
            ((w.length : Int) + 1 - (P.length : Int)) ::
              fa_string_matcher_go P P.length rest (get_next_state P (maxpref P w) c)
                (w.length + 1)
          else fa_string_matcher_go P P.length rest (get_next_state P (maxpref P w) c)
            (w.length + 1)) ↔ _
    rw [hs2]
    by_cases hacc : maxpref P (w ++ [c]) = P.length
    · rw [if_pos hacc]
      have haccsuf : P <:+ w ++ [c] := (maxpref_eq_length_iff P (w ++ [c])).mp hacc
      constructor
      · intro hmm
        rcases List.mem_cons.mp hmm with hk | hk
        · refine ⟨w.length + 1, by omega, by simp only [List.length_cons]; omega, ?_, ?_⟩
          · rw [htake1]
            exact haccsuf
          · rw [hk]
            push_cast
            ring
        · obtain ⟨t, h1, h2, h3, h4⟩ := hihs.mp hk
          refine ⟨t, by omega, by simp only [List.length_cons]; omega, ?_, h4⟩
          rw [hassoc]
          exact h3
      · rintro ⟨t, h1, h2, h3, h4⟩
        by_cases ht : t = w.length + 1
        · subst ht
          apply List.mem_cons.mpr
          left
          rw [h4]
          push_cast
          ring
        · apply List.mem_cons.mpr
          right
          apply hihs.mpr
          refine ⟨t, by omega, ?_, ?_, h4⟩
          · simp only [List.length_cons] at h2
            omega
          · rw [← hassoc]
            exact h3
    · rw [if_neg hacc]
      have hnosuf : ¬ P <:+ w ++ [c] :=
        fun h => hacc ((maxpref_eq_length_iff P (w ++ [c])).mpr h)
      constructor
      · intro hmm
        obtain ⟨t, h1, h2, h3, h4⟩ := hihs.mp hmm
        refine ⟨t, by omega, by simp only [List.length_cons]; omega, ?_, h4⟩
        rw [hassoc]
        exact h3
      · rintro ⟨t, h1, h2, h3, h4⟩
        by_cases ht : t = w.length + 1
        · subst ht
          rw [htake1] at h3
          exact absurd h3 hnosuf
        · apply hihs.mpr
          refine ⟨t, by omega, ?_, ?_, h4⟩
          · simp only [List.length_cons] at h2
            omega
          · rw [← hassoc]
            exact h3

/-- C8 counterexample: the claim lists shift `3` among the reported shifts
for `T = "GTAACAGTAAACG"`, `P = "AAC"`, but the pattern does not occur at
0-based index `3` (`T[3..5] = "ACA"`) and the matcher does not report it
(it reports `2` and `9`, cf. the amended claim). -/
theorem claim_C8_counterexample :
    (3 : Int) ∉ fa_string_matcher "GTAACAGTAAACG".toList "AAC".toList ∧
    ("GTAACAGTAAACG".toList.drop 3).take "AAC".toList.length ≠ "AAC".toList := by
  decide

/-- C8 amended: for every text `T` and non-empty pattern `P` whose
characters all occur in `T`, the matcher reports shift `k` exactly for the
0-based positions at which `P` occurs in `T` as a contiguous substring; in
particular for the book strings the reported shifts include `2` and `9`. -/
theorem claim_C8_amended_matcher_exact (T P : List Char) (hP : P ≠ [])
    (hchars : ∀ c ∈ P, c ∈ T) :
    (∀ k : Int, k ∈ fa_string_matcher T P ↔
      ∃ pos : Nat, k = (pos : Int) ∧ pos + P.length ≤ T.length ∧
        (T.drop pos).take P.length = P) ∧
    (2 : Int) ∈ fa_string_matcher "GTAACAGTAAACG".toList "AAC".toList ∧
    (9 : Int) ∈ fa_string_matcher "GTAACAGTAAACG".toList "AAC".toList := by
  have hm : 1 ≤ P.length := List.length_pos.mpr hP
  refine ⟨?_, by decide, by decide⟩
  intro k
  have h0 : maxpref P [] = 0 := by
    refine Nat.findGreatest_eq_zero_iff.mpr ?_
    intro n hn hnm hsuf
    have hl := List.IsSuffix.length_le hsuf
    simp only [List.length_take, List.length_nil] at hl
    omega
  have hstart := fa_matcher_go_mem P T [] k
  rw [h0] at hstart
  simp only [List.length_nil, List.nil_append, Nat.zero_add] at hstart
  rw [show fa_string_matcher T P = fa_string_matcher_go P P.length T 0 0 from rfl, hstart]
  constructor
  · rintro ⟨t, ht0, htlen, hocc, hk⟩
    have hmt : P.length ≤ t := by
      have hl := List.IsSuffix.length_le hocc
      rw [List.length_take] at hl
      omega
    obtain ⟨u, hu⟩ := hocc
    have hulen : u.length = t - P.length := by
      have hl := congrArg List.length hu
      simp only [List.length_append, List.length_take] at hl
      omega
    refine ⟨t - P.length, by omega, by omega, ?_⟩
    have hdrop : (T.take t).drop (t - P.length) = P := by
      rw [← hulen, ← hu]
      exact List.drop_left u P
    rw [List.drop_take, show t - (t - P.length) = P.length by omega] at hdrop
    exact hdrop
  · rintro ⟨pos, hk, hlen, hocc⟩
    refine ⟨pos + P.length, by omega, by omega, ?_, by rw [hk]; push_cast; ring⟩
    rw [List.take_add, hocc]
    exact ⟨T.take pos, rfl⟩

/-- C8 amended witness: the amended claim instantiated at the book strings,
with both hypotheses discharged. -/
theorem claim_C8_witness :
    (∀ k : Int, k ∈ fa_string_matcher "GTAACAGTAAACG".toList "AAC".toList ↔
      ∃ pos : Nat, k = (pos : Int) ∧
        pos + "AAC".toList.length ≤ "GTAACAGTAAACG".toList.length ∧
        ("GTAACAGTAAACG".toList.drop pos).take "AAC".toList.length = "AAC".toList) ∧
    (2 : Int) ∈ fa_string_matcher "GTAACAGTAAACG".toList "AAC".toList ∧
    (9 : Int) ∈ fa_string_matcher "GTAACAGTAAACG".toList "AAC".toList :=
  claim_C8_amended_matcher_exact "GTAACAGTAAACG".toList "AAC".toList
    (by decide) (by decide)
